import Mathlib

/-!
Shallow embedding of `Online/SingleStream/src/train.py` from the
AttentionEstimation repository, together with theorems checking the
natural-language specification of its training/validation control loop
(`train_network`).

Conventions of the embedding:
* Per-batch scalar statistics (`loss.data[0]`, the correct-prediction count of
  `torch.sum(pred == labels.data)`) are rationals / naturals; Python's true
  division `/` is rational division.
* The network, the loss function and the optimizer are external collaborators:
  the parameter state is an abstract type `P`, a batch is an abstract type `B`,
  and the environment supplies the composite
  `outputs = net.forward(inputs); loss = criterion(outputs, labels);
   pred = argmax; correct = sum(pred == labels)` as a function
  `fwd : P → B → ℚ × ℕ`, and the effect of `optimizer.step()` on the
  parameters as `step : P → B → P`.
* Tensors entering the reshape of lines 61-62 are modelled by their flattened
  leading dimension: a list whose `k`-th entry is the `[3,224,224]` block at
  raw flat index `k`.
* Device placement (`.cuda()`, `Variable`) moves data without changing values
  and is the identity in the embedding.
-/

namespace AttentionEstimation

/-! ## Python name resolution at the backward call (train.py line 81)

`train.py` line 81 reads `sequence_loss.backward()`.  Python resolves the name
`sequence_loss` in the local scope of `train_network` (names bound by
parameters or assignment anywhere in the body), then in the module's global
scope, then in builtins.  The lists below transcribe exactly the names bound
in each scope of `train.py`. -/

/-- Parameters of `train_network` (train.py lines 7-8). -/
def trainNetworkParams : List String :=
  ["net", "dataloaders", "dataset_sizes", "batch_size", "sequence_len",
   "window_size", "criterion", "optimizer", "max_epochs", "gpu"]

/-- Names bound by assignment in the body of `train_network`
(train.py lines 31-111), including loop targets and tuple targets. -/
def trainNetworkAssigned : List String :=
  ["start", "net", "best_model_wts", "best_acc", "losses", "accuracies",
   "patience", "epoch", "phase", "running_loss", "running_correct",
   "i", "data", "inputs", "labels", "outputs", "loss", "_", "pred",
   "correct", "epoch_loss", "epoch_acc", "time_elapsed"]

/-- Module-level names of `train.py`: the imports of lines 2-5 and the
function defined at line 7. -/
def trainModuleGlobals : List String :=
  ["time", "copy", "torch", "Variable", "train_network"]

/-- Local scope of `train_network`: parameters plus assigned names. -/
def trainNetworkLocals : List String :=
  trainNetworkParams ++ trainNetworkAssigned

/-- The name whose `.backward()` method line 81 invokes. -/
def backwardReceiverName : String := "sequence_loss"

/-- The name to which line 76 binds the loss just computed for the current
batch (`loss = criterion(outputs, labels)`). -/
def batchLossName : String := "loss"

/-- Whether a name resolves at line 81 of `train.py` (local scope of
`train_network`, then module globals; `sequence_loss` is not a builtin). -/
def resolvesAtBackwardCall (nm : String) : Bool :=
  trainNetworkLocals.contains nm || trainModuleGlobals.contains nm

/-! ## Reshape of the raw input tensor (train.py lines 61-62)

Line 61: `inputs = inputs.view(-1, window_size, 3, 224, 224)` — a row-major
reinterpretation: with `N` the flat leading length, the inferred dimension is
`N / window_size`, and view-row `i` holds raw flat indices
`i*window_size .. i*window_size + window_size - 1` in order.
Line 62: `inputs = inputs.transpose(0,1)` — `result[w][b] = view[b][w]`. -/

/-- Row-major chunking underlying `Tensor.view`: `chunksOf ws n xs` is the
list of `n` consecutive chunks of length `ws` taken from `xs`. -/
def chunksOf (ws : ℕ) : ℕ → List α → List (List α)
  | 0, _ => []
  | n + 1, xs => xs.take ws :: chunksOf ws n (xs.drop ws)

/-- Embedding of line 61, `inputs.view(-1, window_size, 3, 224, 224)`:
the inferred leading dimension is `xs.length / window_size`. -/
def view_reshape (window_size : ℕ) (xs : List α) : List (List α) :=
  chunksOf window_size (xs.length / window_size) xs

/-- Embedding of line 62, `inputs.transpose(0, 1)` on a tensor whose second
dimension has extent `window_size`: row `w` of the result collects entry `w`
of every row of the input. -/
def transpose01 (window_size : ℕ) (rows : List (List α)) : List (List α) :=
  (List.range window_size).map fun w => rows.filterMap fun r => r[w]?

/-- Lines 61-62 composed: the time-major window tensor. -/
def windowTensor (window_size : ℕ) (xs : List α) : List (List α) :=
  transpose01 window_size (view_reshape window_size xs)

/-- Entry of the window tensor at window position `w`, batch position `b`. -/
def windowAt (t : List (List α)) (w b : ℕ) : Option α :=
  t[w]?.bind fun r => r[b]?

/-! ## The training/validation control loop (train.py lines 36-115)

The loop is parameterised by an environment packaging the external
collaborators (data source, network forward + loss + argmax, optimizer). -/

/-- The two phases of line 47, `for phase in ['Train', 'Valid']`. -/
inductive Phase where
  | Train : Phase
  | Valid : Phase
deriving DecidableEq, Repr

/-- Whether the phase trains (the `phase == 'Train'` tests of lines 48 and 80). -/
def Phase.isTrain : Phase → Bool
  | .Train => true
  | .Valid => false

/-- Scalar arguments of `train_network` (train.py lines 7-8). -/
structure Config where
  batch_size : ℕ
  sequence_len : ℕ
  window_size : ℕ
  max_epochs : ℕ

/-- External collaborators of the loop, over an abstract parameter state `P`
and abstract batch type `B`:
* `loaders e ph` is the batch sequence `dataloaders[ph]` yields at epoch `e`;
* `fwd p b` is the pair of scalars the body of lines 74-78 extracts from a
  batch at parameter state `p`: `loss.data[0]` and
  `torch.sum(pred == labels.data)`;
* `step p b` is the parameter state after `optimizer.step()` at line 82. -/
structure RunEnv (P B : Type) where
  loaders : ℕ → Phase → List B
  fwd : P → B → ℚ × ℕ
  step : P → B → P

/-- Mutable state of the loop body (train.py lines 37-41 and 54-55): the live
network parameters, the best snapshot and accuracy, the two bookkeeping
dictionaries (one list per phase), and the patience counter. -/
@[ext]
structure TrainState (P : Type) where
  net : P
  best_model_wts : P
  best_acc : ℚ
  lossesTrain : List ℚ
  lossesValid : List ℚ
  accsTrain : List ℚ
  accsValid : List ℚ
  patience : ℕ

/-- The dictionary `losses` of line 39, keyed by phase. -/
def TrainState.losses (st : TrainState P) : Phase → List ℚ
  | .Train => st.lossesTrain
  | .Valid => st.lossesValid

/-- The dictionary `accuracies` of line 40, keyed by phase. -/
def TrainState.accuracies (st : TrainState P) : Phase → List ℚ
  | .Train => st.accsTrain
  | .Valid => st.accsValid

/-- Initial state of lines 37-41: `best_model_wts = deepcopy(net.state_dict())`,
`best_acc = 0`, empty loss/accuracy lists, `patience = 0`. -/
def initState (p0 : P) : TrainState P :=
  { net := p0, best_model_wts := p0, best_acc := 0,
    lossesTrain := [], lossesValid := [], accsTrain := [], accsValid := [],
    patience := 0 }

/-- Batch loop of lines 57-86 for one phase: each batch contributes
`running_loss += loss.data[0]` and `running_correct += correct` computed from
the parameter state before the batch; in the training phase lines 81-82 then
advance the parameters. Returns the final parameters and both accumulators. -/
def runPhase (env : RunEnv P B) (training : Bool) :
    P → ℚ → ℕ → List B → P × ℚ × ℕ
  | p, rl, rc, [] => (p, rl, rc)
  | p, rl, rc, b :: bs =>
      runPhase env training (if training then env.step p b else p)
        (rl + (env.fwd p b).1) (rc + (env.fwd p b).2) bs

/-- Line 88: `epoch_loss = running_loss * batch_size / dataset_sizes[phase]`. -/
def epochLoss (cfg : Config) (sizes : Phase → ℕ) (ph : Phase)
    (running_loss : ℚ) : ℚ :=
  running_loss * (cfg.batch_size : ℚ) / (sizes ph : ℚ)

/-- Lines 89-90: `epoch_acc = running_correct / (dataset_sizes[phase] *
(sequence_len - window_size + 1))`. -/
def epochAcc (cfg : Config) (sizes : Phase → ℕ) (ph : Phase)
    (running_correct : ℕ) : ℚ :=
  (running_correct : ℚ) /
    ((sizes ph : ℚ) * ((cfg.sequence_len : ℚ) - (cfg.window_size : ℚ) + 1))

/-- One phase of the epoch body (train.py lines 47-102): run all batches,
reduce the accumulators to `epoch_loss`/`epoch_acc`, append them to the
bookkeeping lists, and in the Valid phase update the patience counter and the
best-model record (lines 96-102). -/
def processPhase (env : RunEnv P B) (cfg : Config) (sizes : Phase → ℕ)
    (e : ℕ) (ph : Phase) (st : TrainState P) : TrainState P :=
  let r := runPhase env ph.isTrain st.net 0 0 (env.loaders e ph)
  let epoch_loss := epochLoss cfg sizes ph r.2.1
  let epoch_acc := epochAcc cfg sizes ph r.2.2
  match ph with
  | .Train =>
      { st with
          net := r.1,
          lossesTrain := st.lossesTrain ++ [epoch_loss],
          accsTrain := st.accsTrain ++ [epoch_acc] }
  | .Valid =>
      if epoch_acc > st.best_acc then
        { st with
            net := r.1,
            lossesValid := st.lossesValid ++ [epoch_loss],
            accsValid := st.accsValid ++ [epoch_acc],
            best_acc := epoch_acc, best_model_wts := r.1, patience := 0 }
      else
        { st with
            net := r.1,
            lossesValid := st.lossesValid ++ [epoch_loss],
            accsValid := st.accsValid ++ [epoch_acc],
            patience := st.patience + 1 }

/-- One iteration of the epoch loop body (line 47): the Train phase followed
by the Valid phase. -/
def runEpoch (env : RunEnv P B) (cfg : Config) (sizes : Phase → ℕ) (e : ℕ)
    (st : TrainState P) : TrainState P :=
  processPhase env cfg sizes e Phase.Valid
    (processPhase env cfg sizes e Phase.Train st)

/-- Epoch loop of lines 42-105 starting at epoch `e` with `n` epochs left:
after each epoch, line 104's `if patience == 20: break` may end the loop. -/
def runEpochsFrom (env : RunEnv P B) (cfg : Config) (sizes : Phase → ℕ) :
    ℕ → ℕ → TrainState P → TrainState P
  | _, 0, st => st
  | e, n + 1, st =>
      let st' := runEpoch env cfg sizes e st
      if st'.patience = 20 then st' else runEpochsFrom env cfg sizes (e + 1) n st'

/-- Return value of `train_network` (lines 113-115): the model with the best
snapshot loaded (`net.load_state_dict(best_model_wts)`), the best accuracy,
and the two bookkeeping dictionaries. -/
structure TrainResult (P : Type) where
  net : P
  best_acc : ℚ
  losses : Phase → List ℚ
  accuracies : Phase → List ℚ

/-- Embedding of `train_network` (train.py lines 7-115): initialise the state
(lines 37-41), run the epoch loop (lines 42-105), load the best snapshot into
the model and return (lines 113-115). -/
def train_network (env : RunEnv P B) (cfg : Config) (sizes : Phase → ℕ)
    (p0 : P) : TrainResult P :=
  let fin := runEpochsFrom env cfg sizes 0 cfg.max_epochs (initState p0)
  { net := fin.best_model_wts, best_acc := fin.best_acc,
    losses := fin.losses, accuracies := fin.accuracies }

/-! ## Closed-form description of the loop's trajectory

The loop state after any number of completed epochs is a pure function of the
environment; the definitions below give that closed form and the
`runEpoch_spec` / `runEpochsFrom_spec` lemmas prove the correspondence. -/

variable {P B : Type}

/-- Parameter state after the Train phases of epochs `0 .. e-1`: only line 82
(`optimizer.step()`) changes the parameters, once per Train batch. -/
def netAfter (env : RunEnv P B) (p0 : P) : ℕ → P
  | 0 => p0
  | e + 1 => (env.loaders e Phase.Train).foldl env.step (netAfter env p0 e)

/-- Parameter state current when the given phase of epoch `e` starts: the
Train phase sees the weights left by epoch `e-1`, the Valid phase sees the
weights the Train phase of epoch `e` just produced. -/
def phaseStartNet (env : RunEnv P B) (p0 : P) (e : ℕ) : Phase → P
  | .Train => netAfter env p0 e
  | .Valid => netAfter env p0 (e + 1)

/-- The pair `(running_loss, running_correct)` accumulated by the batch loop
of the given phase of epoch `e`. -/
def runningStats (env : RunEnv P B) (p0 : P) (e : ℕ) (ph : Phase) : ℚ × ℕ :=
  (runPhase env ph.isTrain (phaseStartNet env p0 e ph) 0 0 (env.loaders e ph)).2

/-- The `epoch_loss` value line 88 computes for the given phase of epoch `e`. -/
def epochLossAt (env : RunEnv P B) (cfg : Config) (sizes : Phase → ℕ) (p0 : P)
    (e : ℕ) (ph : Phase) : ℚ :=
  epochLoss cfg sizes ph (runningStats env p0 e ph).1

/-- The `epoch_acc` value lines 89-90 compute for the given phase of epoch `e`. -/
def epochAccAt (env : RunEnv P B) (cfg : Config) (sizes : Phase → ℕ) (p0 : P)
    (e : ℕ) (ph : Phase) : ℚ :=
  epochAcc cfg sizes ph (runningStats env p0 e ph).2

/-- The Valid-phase accuracy of epoch `e`. -/
def validAccAt (env : RunEnv P B) (cfg : Config) (sizes : Phase → ℕ) (p0 : P)
    (e : ℕ) : ℚ :=
  epochAccAt env cfg sizes p0 e Phase.Valid

/-- Value of `best_acc` after epochs `0 .. e-1` (line 38 initialises it to 0,
line 99 raises it on strict improvement). -/
def bestAfter (env : RunEnv P B) (cfg : Config) (sizes : Phase → ℕ) (p0 : P) :
    ℕ → ℚ
  | 0 => 0
  | e + 1 =>
      if validAccAt env cfg sizes p0 e > bestAfter env cfg sizes p0 e then
        validAccAt env cfg sizes p0 e
      else bestAfter env cfg sizes p0 e

/-- Epoch `e` strictly improves on the best Valid accuracy seen before it
(the test of line 98). -/
def improving (env : RunEnv P B) (cfg : Config) (sizes : Phase → ℕ) (p0 : P)
    (e : ℕ) : Prop :=
  validAccAt env cfg sizes p0 e > bestAfter env cfg sizes p0 e

instance (env : RunEnv P B) (cfg : Config) (sizes : Phase → ℕ) (p0 : P)
    (e : ℕ) : Decidable (improving env cfg sizes p0 e) := by
  unfold improving; infer_instance

/-- Value of `patience` after epochs `0 .. e-1` (line 41 initialises it to 0,
line 97 increments it each Valid phase, line 102 resets it on improvement). -/
def paAfter (env : RunEnv P B) (cfg : Config) (sizes : Phase → ℕ) (p0 : P) :
    ℕ → ℕ
  | 0 => 0
  | e + 1 =>
      if validAccAt env cfg sizes p0 e > bestAfter env cfg sizes p0 e then 0
      else paAfter env cfg sizes p0 e + 1

/-- Value of `best_model_wts` after epochs `0 .. e-1` (line 37 initialises it
to a deep copy of the initial weights, line 101 re-snapshots on improvement). -/
def wtsAfter (env : RunEnv P B) (cfg : Config) (sizes : Phase → ℕ) (p0 : P) :
    ℕ → P
  | 0 => p0
  | e + 1 =>
      if validAccAt env cfg sizes p0 e > bestAfter env cfg sizes p0 e then
        netAfter env p0 (e + 1)
      else wtsAfter env cfg sizes p0 e

/-- Closed form of the loop state after epochs `0 .. e-1` have completed. -/
def specState (env : RunEnv P B) (cfg : Config) (sizes : Phase → ℕ) (p0 : P)
    (e : ℕ) : TrainState P :=
  { net := netAfter env p0 e,
    best_model_wts := wtsAfter env cfg sizes p0 e,
    best_acc := bestAfter env cfg sizes p0 e,
    lossesTrain := (List.range e).map fun i => epochLossAt env cfg sizes p0 i Phase.Train,
    lossesValid := (List.range e).map fun i => epochLossAt env cfg sizes p0 i Phase.Valid,
    accsTrain := (List.range e).map fun i => epochAccAt env cfg sizes p0 i Phase.Train,
    accsValid := (List.range e).map fun i => epochAccAt env cfg sizes p0 i Phase.Valid,
    patience := paAfter env cfg sizes p0 e }

/-- Closed form of the loop state in the middle of epoch `e`, after its Train
phase and before its Valid phase. -/
def specStateMid (env : RunEnv P B) (cfg : Config) (sizes : Phase → ℕ) (p0 : P)
    (e : ℕ) : TrainState P :=
  { net := netAfter env p0 (e + 1),
    best_model_wts := wtsAfter env cfg sizes p0 e,
    best_acc := bestAfter env cfg sizes p0 e,
    lossesTrain := (List.range (e + 1)).map fun i => epochLossAt env cfg sizes p0 i Phase.Train,
    lossesValid := (List.range e).map fun i => epochLossAt env cfg sizes p0 i Phase.Valid,
    accsTrain := (List.range (e + 1)).map fun i => epochAccAt env cfg sizes p0 i Phase.Train,
    accsValid := (List.range e).map fun i => epochAccAt env cfg sizes p0 i Phase.Valid,
    patience := paAfter env cfg sizes p0 e }

/-- The epoch index at which the loop of lines 42-105 exits, having started at
epoch `e` with `n` epochs left: either a `patience == 20` break or exhaustion
of `range(max_epochs)`. -/
def endEpoch (env : RunEnv P B) (cfg : Config) (sizes : Phase → ℕ) (p0 : P) :
    ℕ → ℕ → ℕ
  | e, 0 => e
  | e, n + 1 =>
      if paAfter env cfg sizes p0 (e + 1) = 20 then e + 1
      else endEpoch env cfg sizes p0 (e + 1) n

/-- Number of epochs `train_network` actually executes. -/
def epochsRun (env : RunEnv P B) (cfg : Config) (sizes : Phase → ℕ) (p0 : P) : ℕ :=
  endEpoch env cfg sizes p0 0 cfg.max_epochs

/-- The per-batch `(loss.data[0], correct)` pairs produced while the batch
loop walks `bs` from parameter state `p` (the parameters advance after each
batch only when training). -/
def batchStatsList (env : RunEnv P B) (training : Bool) : P → List B → List (ℚ × ℕ)
  | _, [] => []
  | p, b :: bs =>
      env.fwd p b ::
        batchStatsList env training (if training then env.step p b else p) bs

/-- Degenerate one-batch-per-phase environment with constant per-batch
statistics, used to instantiate the theorems at concrete runs. -/
def constEnv (l : ℚ) (c : ℕ) : RunEnv Unit Unit :=
  { loaders := fun _ _ => [()], fwd := fun _ _ => (l, c), step := fun _ _ => () }

/-- Environment whose parameter state counts optimizer steps and whose
per-batch correct count equals the current parameter state. -/
def countEnv : RunEnv ℕ Unit :=
  { loaders := fun _ _ => [()], fwd := fun p _ => ((1 : ℚ), p), step := fun p _ => p + 1 }

/-! ## Indexing facts for the reshape of lines 61-62 -/

theorem chunksOf_getElem? (ws : ℕ) :
    ∀ (n : ℕ) (xs : List α) (b : ℕ), b < n →
      (chunksOf ws n xs)[b]? = some ((xs.drop (b * ws)).take ws) := by
  intro n
  induction n with
  | zero => intro xs b hb; exact absurd hb (Nat.not_lt_zero b)
  | succ n ih =>
    intro xs b hb
    cases b with
    | zero => simp [chunksOf]
    | succ b =>
      have hb' : b < n := Nat.lt_of_succ_lt_succ hb
      simp only [chunksOf, List.getElem?_cons_succ, ih (xs.drop ws) b hb',
        List.drop_drop]
      have h2 : ws + b * ws = (b + 1) * ws := by ring
      rw [h2]

theorem chunksOf_length_mem (ws : ℕ) :
    ∀ (n : ℕ) (xs : List α), xs.length = n * ws →
      ∀ r ∈ chunksOf ws n xs, r.length = ws := by
  intro n
  induction n with
  | zero => intro xs _ r hr; simp [chunksOf] at hr
  | succ n ih =>
    intro xs hlen r hr
    simp only [chunksOf, List.mem_cons] at hr
    rcases hr with hr | hr
    · subst hr
      rw [List.length_take]
      have : ws ≤ xs.length := by
        rw [hlen]; calc ws = 1 * ws := (Nat.one_mul ws).symm
          _ ≤ (n + 1) * ws := Nat.mul_le_mul_right ws (Nat.succ_le_succ (Nat.zero_le n))
      omega
    · exact ih (xs.drop ws) (by rw [List.length_drop, hlen]; ring_nf; omega) r hr

theorem transpose01_getElem? (ws : ℕ) (rows : List (List α)) (w : ℕ)
    (hw : w < ws) :
    (transpose01 ws rows)[w]? = some (rows.filterMap fun r => r[w]?) := by
  simp [transpose01, List.getElem?_map, List.getElem?_range hw]

theorem filterMap_getElem?_of_all_some (w : ℕ) :
    ∀ (rows : List (List α)), (∀ r ∈ rows, w < r.length) →
      ∀ b : ℕ, (rows.filterMap fun r => r[w]?)[b]? = rows[b]?.bind fun r => r[w]? := by
  intro rows
  induction rows with
  | nil => intro _ b; simp
  | cons r rest ih =>
    intro hall b
    have hr : w < r.length := hall r (List.mem_cons_self r rest)
    obtain ⟨v, hv⟩ : ∃ v, r[w]? = some v := ⟨r[w], List.getElem?_eq_getElem hr⟩
    have hrest : ∀ s ∈ rest, w < s.length := fun s hs => hall s (List.mem_cons_of_mem r hs)
    cases b with
    | zero => simp [List.filterMap_cons, hv]
    | succ b => simp [List.filterMap_cons, hv, ih hrest b]

/-- Master indexing theorem for lines 61-62: when the raw flat leading length
is `batch_size * window_size`, the window tensor at `[w, b]` is the raw
element at flat index `b * window_size + w`. -/
theorem windowTensor_spec (ws bs : ℕ) (xs : List α)
    (hlen : xs.length = bs * ws) (w b : ℕ) (hw : w < ws) (hb : b < bs) :
    windowAt (windowTensor ws xs) w b = xs[b * ws + w]? := by
  have hws : 0 < ws := Nat.pos_of_ne_zero (by rintro rfl; omega)
  have hdiv : xs.length / ws = bs := by rw [hlen, Nat.mul_div_cancel _ hws]
  have hall : ∀ r ∈ view_reshape ws xs, w < r.length := by
    intro r hr
    have := chunksOf_length_mem ws bs xs (by rw [hlen, Nat.mul_comm]) r
      (by rwa [view_reshape, hdiv] at hr)
    omega
  unfold windowAt windowTensor
  rw [transpose01_getElem? ws _ w hw, Option.some_bind,
    filterMap_getElem?_of_all_some w _ hall b,
    view_reshape, hdiv, chunksOf_getElem? ws bs xs b hb, Option.some_bind]
  rw [List.getElem?_take_of_lt hw, List.getElem?_drop]

theorem runPhase_net_of_not_training (env : RunEnv P B) :
    ∀ (bs : List B) (p : P) (rl : ℚ) (rc : ℕ),
      (runPhase env false p rl rc bs).1 = p := by
  intro bs
  induction bs with
  | nil => intro p rl rc; rfl
  | cons b bs ih => intro p rl rc; simp only [runPhase, if_neg Bool.false_ne_true]; exact ih _ _ _

theorem runPhase_net_of_training (env : RunEnv P B) :
    ∀ (bs : List B) (p : P) (rl : ℚ) (rc : ℕ),
      (runPhase env true p rl rc bs).1 = bs.foldl env.step p := by
  intro bs
  induction bs with
  | nil => intro p rl rc; rfl
  | cons b bs ih => intro p rl rc; simp only [runPhase, if_pos rfl, List.foldl_cons]; exact ih _ _ _

theorem processPhase_Train_spec (env : RunEnv P B) (cfg : Config)
    (sizes : Phase → ℕ) (p0 : P) (e : ℕ) :
    processPhase env cfg sizes e Phase.Train (specState env cfg sizes p0 e) =
      specStateMid env cfg sizes p0 e := by
  simp only [processPhase, specState, specStateMid, Phase.isTrain,
    runPhase_net_of_training, epochLossAt, epochAccAt, runningStats,
    phaseStartNet, List.range_succ, List.map_append, List.map_cons,
    List.map_nil, netAfter]

theorem processPhase_Valid_spec (env : RunEnv P B) (cfg : Config)
    (sizes : Phase → ℕ) (p0 : P) (e : ℕ) :
    processPhase env cfg sizes e Phase.Valid (specStateMid env cfg sizes p0 e) =
      specState env cfg sizes p0 (e + 1) := by
  by_cases h : validAccAt env cfg sizes p0 e > bestAfter env cfg sizes p0 e
  · simp only [validAccAt, epochAccAt, runningStats, phaseStartNet,
      Phase.isTrain, netAfter] at h
    simp only [processPhase, specStateMid, specState, Phase.isTrain,
      runPhase_net_of_not_training, epochLossAt, epochAccAt, runningStats,
      phaseStartNet, validAccAt, List.range_succ, List.map_append,
      List.map_cons, List.map_nil, bestAfter, paAfter, wtsAfter, netAfter,
      if_pos h]
  · simp only [validAccAt, epochAccAt, runningStats, phaseStartNet,
      Phase.isTrain, netAfter] at h
    simp only [processPhase, specStateMid, specState, Phase.isTrain,
      runPhase_net_of_not_training, epochLossAt, epochAccAt, runningStats,
      phaseStartNet, validAccAt, List.range_succ, List.map_append,
      List.map_cons, List.map_nil, bestAfter, paAfter, wtsAfter, netAfter,
      if_neg h]

theorem runEpoch_spec (env : RunEnv P B) (cfg : Config) (sizes : Phase → ℕ)
    (p0 : P) (e : ℕ) :
    runEpoch env cfg sizes e (specState env cfg sizes p0 e) =
      specState env cfg sizes p0 (e + 1) := by
  rw [runEpoch, processPhase_Train_spec, processPhase_Valid_spec]

theorem initState_eq_specState (env : RunEnv P B) (cfg : Config)
    (sizes : Phase → ℕ) (p0 : P) :
    initState p0 = specState env cfg sizes p0 0 := by
  simp [initState, specState, netAfter, wtsAfter, bestAfter, paAfter]

theorem runEpochsFrom_spec (env : RunEnv P B) (cfg : Config)
    (sizes : Phase → ℕ) (p0 : P) :
    ∀ (n e : ℕ),
      runEpochsFrom env cfg sizes e n (specState env cfg sizes p0 e) =
        specState env cfg sizes p0 (endEpoch env cfg sizes p0 e n) := by
  intro n
  induction n with
  | zero => intro e; rfl
  | succ n ih =>
    intro e
    rw [runEpochsFrom, runEpoch_spec]
    by_cases h : paAfter env cfg sizes p0 (e + 1) = 20
    · rw [if_pos (by simpa [specState] using h), endEpoch, if_pos h]
    · rw [if_neg (by simpa [specState] using h), endEpoch, if_neg h, ih]

/-- The final loop state is the closed form at the exit epoch. -/
theorem finalState_eq (env : RunEnv P B) (cfg : Config) (sizes : Phase → ℕ)
    (p0 : P) :
    runEpochsFrom env cfg sizes 0 cfg.max_epochs (initState p0) =
      specState env cfg sizes p0 (epochsRun env cfg sizes p0) := by
  rw [initState_eq_specState env cfg sizes p0, runEpochsFrom_spec, epochsRun]

/-! ## Per-batch statistics and projection helpers -/

theorem runPhase_loss_eq (env : RunEnv P B) (training : Bool) :
    ∀ (bs : List B) (p : P) (rl : ℚ) (rc : ℕ),
      (runPhase env training p rl rc bs).2.1 =
        rl + ((batchStatsList env training p bs).map Prod.fst).sum := by
  intro bs
  induction bs with
  | nil => intro p rl rc; simp [runPhase, batchStatsList]
  | cons b bs ih =>
    intro p rl rc
    simp only [runPhase, batchStatsList, List.map_cons, List.sum_cons, ih]
    ring

theorem runPhase_correct_eq (env : RunEnv P B) (training : Bool) :
    ∀ (bs : List B) (p : P) (rl : ℚ) (rc : ℕ),
      (runPhase env training p rl rc bs).2.2 =
        rc + ((batchStatsList env training p bs).map Prod.snd).sum := by
  intro bs
  induction bs with
  | nil => intro p rl rc; simp [runPhase, batchStatsList]
  | cons b bs ih =>
    intro p rl rc
    simp only [runPhase, batchStatsList, List.map_cons, List.sum_cons, ih]
    omega

/-- `running_loss` of a phase is the plain sum of the per-batch loss values. -/
theorem runningStats_loss (env : RunEnv P B) (p0 : P) (e : ℕ) (ph : Phase) :
    (runningStats env p0 e ph).1 =
      ((batchStatsList env ph.isTrain (phaseStartNet env p0 e ph)
          (env.loaders e ph)).map Prod.fst).sum := by
  rw [runningStats, runPhase_loss_eq]
  ring

/-- `running_correct` of a phase is the plain sum of the per-batch correct
counts. -/
theorem runningStats_correct (env : RunEnv P B) (p0 : P) (e : ℕ) (ph : Phase) :
    (runningStats env p0 e ph).2 =
      ((batchStatsList env ph.isTrain (phaseStartNet env p0 e ph)
          (env.loaders e ph)).map Prod.snd).sum := by
  rw [runningStats, runPhase_correct_eq]
  omega

theorem train_network_losses (env : RunEnv P B) (cfg : Config)
    (sizes : Phase → ℕ) (p0 : P) (ph : Phase) :
    (train_network env cfg sizes p0).losses ph =
      (List.range (epochsRun env cfg sizes p0)).map
        fun i => epochLossAt env cfg sizes p0 i ph := by
  show (runEpochsFrom env cfg sizes 0 cfg.max_epochs (initState p0)).losses ph = _
  rw [finalState_eq]
  cases ph <;> rfl

theorem train_network_accuracies (env : RunEnv P B) (cfg : Config)
    (sizes : Phase → ℕ) (p0 : P) (ph : Phase) :
    (train_network env cfg sizes p0).accuracies ph =
      (List.range (epochsRun env cfg sizes p0)).map
        fun i => epochAccAt env cfg sizes p0 i ph := by
  show (runEpochsFrom env cfg sizes 0 cfg.max_epochs (initState p0)).accuracies ph = _
  rw [finalState_eq]
  cases ph <;> rfl

theorem train_network_net (env : RunEnv P B) (cfg : Config)
    (sizes : Phase → ℕ) (p0 : P) :
    (train_network env cfg sizes p0).net =
      wtsAfter env cfg sizes p0 (epochsRun env cfg sizes p0) := by
  show (runEpochsFrom env cfg sizes 0 cfg.max_epochs (initState p0)).best_model_wts = _
  rw [finalState_eq]
  rfl

theorem train_network_best_acc (env : RunEnv P B) (cfg : Config)
    (sizes : Phase → ℕ) (p0 : P) :
    (train_network env cfg sizes p0).best_acc =
      bestAfter env cfg sizes p0 (epochsRun env cfg sizes p0) := by
  show (runEpochsFrom env cfg sizes 0 cfg.max_epochs (initState p0)).best_acc = _
  rw [finalState_eq]
  rfl

/-! ## Arithmetic of the exit epoch and the patience counter -/

theorem le_endEpoch (env : RunEnv P B) (cfg : Config) (sizes : Phase → ℕ)
    (p0 : P) : ∀ (n e : ℕ), e ≤ endEpoch env cfg sizes p0 e n := by
  intro n
  induction n with
  | zero => intro e; exact Nat.le_refl e
  | succ n ih =>
    intro e
    rw [endEpoch]
    by_cases h : paAfter env cfg sizes p0 (e + 1) = 20
    · rw [if_pos h]; omega
    · rw [if_neg h]; exact Nat.le_trans (Nat.le_succ e) (ih (e + 1))

theorem endEpoch_le (env : RunEnv P B) (cfg : Config) (sizes : Phase → ℕ)
    (p0 : P) : ∀ (n e : ℕ), endEpoch env cfg sizes p0 e n ≤ e + n := by
  intro n
  induction n with
  | zero => intro e; exact Nat.le_refl e
  | succ n ih =>
    intro e
    rw [endEpoch]
    by_cases h : paAfter env cfg sizes p0 (e + 1) = 20
    · rw [if_pos h]; omega
    · rw [if_neg h]; have := ih (e + 1); omega

theorem epochsRun_le_max_epochs (env : RunEnv P B) (cfg : Config)
    (sizes : Phase → ℕ) (p0 : P) :
    epochsRun env cfg sizes p0 ≤ cfg.max_epochs := by
  have := endEpoch_le env cfg sizes p0 cfg.max_epochs 0
  rw [epochsRun]
  omega

/-- Before the exit epoch, `patience` never equals the threshold: the break of
line 104 fires at the first epoch whose patience is 20. -/
theorem paAfter_ne_20_before_end (env : RunEnv P B) (cfg : Config)
    (sizes : Phase → ℕ) (p0 : P) :
    ∀ (n e j : ℕ), e ≤ j → j + 1 < endEpoch env cfg sizes p0 e n →
      paAfter env cfg sizes p0 (j + 1) ≠ 20 := by
  intro n
  induction n with
  | zero => intro e j hej hlt; rw [endEpoch] at hlt; omega
  | succ n ih =>
    intro e j hej hlt
    rw [endEpoch] at hlt
    by_cases h : paAfter env cfg sizes p0 (e + 1) = 20
    · rw [if_pos h] at hlt; omega
    · rw [if_neg h] at hlt
      rcases Nat.eq_or_lt_of_le hej with rfl | hlt'
      · exact h
      · exact ih (e + 1) j hlt' hlt

/-- If no break fires strictly before epoch `j`, the patience counter is
still below the threshold at `j` (it rises by at most one per epoch and a
value of 20 fires the break). -/
theorem paAfter_le_19 (env : RunEnv P B) (cfg : Config) (sizes : Phase → ℕ)
    (p0 : P) :
    ∀ (j : ℕ), (∀ i, i < j → paAfter env cfg sizes p0 (i + 1) ≠ 20) →
      paAfter env cfg sizes p0 j ≤ 19 := by
  intro j
  induction j with
  | zero => intro _; simp [paAfter]
  | succ j ih =>
    intro h
    have hj : paAfter env cfg sizes p0 j ≤ 19 := ih fun i hi => h i (Nat.lt_succ_of_lt hi)
    have hne : paAfter env cfg sizes p0 (j + 1) ≠ 20 := h j (Nat.lt_succ_self j)
    rw [paAfter]
    by_cases himp : validAccAt env cfg sizes p0 j > bestAfter env cfg sizes p0 j
    · rw [if_pos himp]; omega
    · rw [if_neg himp]
      rw [paAfter, if_neg himp] at hne
      omega

/-- When the loop does not break strictly inside its remaining fuel, it runs
all of it. -/
theorem runEpochsFrom_eq_of_no_stop (env : RunEnv P B) (cfg : Config)
    (sizes : Phase → ℕ) (p0 : P) :
    ∀ (n e : ℕ),
      (∀ j, e ≤ j → j + 1 < e + n → paAfter env cfg sizes p0 (j + 1) ≠ 20) →
      runEpochsFrom env cfg sizes e n (specState env cfg sizes p0 e) =
        specState env cfg sizes p0 (e + n) := by
  intro n
  induction n with
  | zero => intro e _; rfl
  | succ n ih =>
    intro e h
    rw [runEpochsFrom, runEpoch_spec]
    by_cases hstop : paAfter env cfg sizes p0 (e + 1) = 20
    · have hn : n = 0 := by
        by_contra hn0
        exact h e (Nat.le_refl e) (by omega) hstop
      subst hn
      rw [if_pos (by simpa [specState] using hstop)]
    · rw [if_neg (by simpa [specState] using hstop)]
      have := ih (e + 1) fun j hj hlt => h j (by omega) (by omega)
      rw [this]
      congr 1
      omega

/-- State of the loop after `e` completed epochs, for any `e` not past the
exit epoch. -/
theorem partialRun_eq (env : RunEnv P B) (cfg : Config) (sizes : Phase → ℕ)
    (p0 : P) (e : ℕ) (he : e ≤ epochsRun env cfg sizes p0) :
    runEpochsFrom env cfg sizes 0 e (initState p0) =
      specState env cfg sizes p0 e := by
  rw [initState_eq_specState env cfg sizes p0]
  have h := runEpochsFrom_eq_of_no_stop env cfg sizes p0 e 0 ?_
  · rw [h]; congr 1; omega
  · intro j _ hlt
    exact paAfter_ne_20_before_end env cfg sizes p0 cfg.max_epochs 0 j
      (Nat.zero_le j) (by rw [← epochsRun]; omega)

/-! ## Properties of the best-accuracy record -/

theorem bestAfter_eq_foldl (env : RunEnv P B) (cfg : Config)
    (sizes : Phase → ℕ) (p0 : P) :
    ∀ e, bestAfter env cfg sizes p0 e =
      ((List.range e).map (validAccAt env cfg sizes p0)).foldl max 0 := by
  intro e
  induction e with
  | zero => rfl
  | succ e ih =>
    rw [List.range_succ, List.map_append, List.foldl_append]
    simp only [List.map_cons, List.map_nil, List.foldl_cons, List.foldl_nil]
    rw [bestAfter, ← ih]
    by_cases h : validAccAt env cfg sizes p0 e > bestAfter env cfg sizes p0 e
    · rw [if_pos h, max_eq_right (le_of_lt h)]
    · rw [if_neg h, max_eq_left (not_lt.mp h)]

theorem foldl_max_lt (C : ℚ) :
    ∀ (l : List ℚ) (a : ℚ), a < C → (∀ x ∈ l, x < C) → l.foldl max a < C := by
  intro l
  induction l with
  | nil => intro a ha _; simpa using ha
  | cons x xs ih =>
    intro a ha hall
    rw [List.foldl_cons]
    exact ih (max a x) (max_lt ha (hall x (List.mem_cons_self x xs)))
      fun y hy => hall y (List.mem_cons_of_mem x hy)

theorem bestAfter_nonneg (env : RunEnv P B) (cfg : Config) (sizes : Phase → ℕ)
    (p0 : P) : ∀ e, 0 ≤ bestAfter env cfg sizes p0 e := by
  intro e
  induction e with
  | zero => exact le_refl 0
  | succ e ih =>
    rw [bestAfter]
    by_cases h : validAccAt env cfg sizes p0 e > bestAfter env cfg sizes p0 e
    · rw [if_pos h]; exact le_of_lt (lt_of_le_of_lt ih h)
    · rw [if_neg h]; exact ih

theorem bestAfter_mono_succ (env : RunEnv P B) (cfg : Config)
    (sizes : Phase → ℕ) (p0 : P) (e : ℕ) :
    bestAfter env cfg sizes p0 e ≤ bestAfter env cfg sizes p0 (e + 1) := by
  rw [bestAfter]
  by_cases h : validAccAt env cfg sizes p0 e > bestAfter env cfg sizes p0 e
  · rw [if_pos h]; exact le_of_lt h
  · rw [if_neg h]

theorem bestAfter_mono (env : RunEnv P B) (cfg : Config) (sizes : Phase → ℕ)
    (p0 : P) {i j : ℕ} (hij : i ≤ j) :
    bestAfter env cfg sizes p0 i ≤ bestAfter env cfg sizes p0 j := by
  induction hij with
  | refl => exact le_refl _
  | step _ ih => exact le_trans ih (bestAfter_mono_succ env cfg sizes p0 _)

theorem validAccAt_le_bestAfter_succ (env : RunEnv P B) (cfg : Config)
    (sizes : Phase → ℕ) (p0 : P) (e : ℕ) :
    validAccAt env cfg sizes p0 e ≤ bestAfter env cfg sizes p0 (e + 1) := by
  rw [bestAfter]
  by_cases h : validAccAt env cfg sizes p0 e > bestAfter env cfg sizes p0 e
  · rw [if_pos h]
  · rw [if_neg h]; exact not_lt.mp h

theorem wtsAfter_stable (env : RunEnv P B) (cfg : Config) (sizes : Phase → ℕ)
    (p0 : P) :
    ∀ (d j : ℕ), (∀ i, j ≤ i → i < j + d → ¬ improving env cfg sizes p0 i) →
      wtsAfter env cfg sizes p0 (j + d) = wtsAfter env cfg sizes p0 j := by
  intro d
  induction d with
  | zero => intro j _; rfl
  | succ d ih =>
    intro j h
    have hni : ¬ improving env cfg sizes p0 (j + d) := h (j + d) (by omega) (by omega)
    simp only [improving] at hni
    show wtsAfter env cfg sizes p0 ((j + d) + 1) = _
    rw [wtsAfter, if_neg hni]
    exact ih j fun i h1 h2 => h i h1 (by omega)

/-- The snapshot after any run prefix during which the final best accuracy is
positive and is first achieved at epoch `j` is the deep copy taken right
after epoch `j`'s Valid phase. -/
theorem wtsAfter_eq_netAfter_of_first (env : RunEnv P B) (cfg : Config)
    (sizes : Phase → ℕ) (p0 : P) (e j : ℕ) (hj : j < e)
    (hmax : validAccAt env cfg sizes p0 j = bestAfter env cfg sizes p0 e)
    (hfirst : ∀ i, i < j →
      validAccAt env cfg sizes p0 i ≠ bestAfter env cfg sizes p0 e)
    (hpos : 0 < bestAfter env cfg sizes p0 e) :
    wtsAfter env cfg sizes p0 e = netAfter env p0 (j + 1) := by
  have hlt : ∀ i, i < j → validAccAt env cfg sizes p0 i < bestAfter env cfg sizes p0 e := by
    intro i hi
    exact lt_of_le_of_ne
      (le_trans (validAccAt_le_bestAfter_succ env cfg sizes p0 i)
        (bestAfter_mono env cfg sizes p0 (by omega)))
      (hfirst i hi)
  have hbj : bestAfter env cfg sizes p0 j < bestAfter env cfg sizes p0 e := by
    rw [bestAfter_eq_foldl]
    apply foldl_max_lt _ _ _ hpos
    intro x hx
    rw [List.mem_map] at hx
    obtain ⟨i, hi, rfl⟩ := hx
    exact hlt i (List.mem_range.mp hi)
  have himp : validAccAt env cfg sizes p0 j > bestAfter env cfg sizes p0 j := by
    rw [hmax]; exact hbj
  have hw1 : wtsAfter env cfg sizes p0 (j + 1) = netAfter env p0 (j + 1) := by
    rw [wtsAfter, if_pos himp]
  have hb1 : bestAfter env cfg sizes p0 (j + 1) = bestAfter env cfg sizes p0 e := by
    rw [bestAfter, if_pos himp, hmax]
  have hstall : ∀ i, j + 1 ≤ i → i < (j + 1) + (e - (j + 1)) →
      ¬ improving env cfg sizes p0 i := by
    intro i h1i h2i himp'
    simp only [improving] at himp'
    have hup : bestAfter env cfg sizes p0 e ≤ bestAfter env cfg sizes p0 i := by
      rw [← hb1]; exact bestAfter_mono env cfg sizes p0 h1i
    have hdown : validAccAt env cfg sizes p0 i ≤ bestAfter env cfg sizes p0 e :=
      le_trans (validAccAt_le_bestAfter_succ env cfg sizes p0 i)
        (bestAfter_mono env cfg sizes p0 (by omega))
    exact absurd himp' (not_lt.mpr (le_trans hdown hup))
  have := wtsAfter_stable env cfg sizes p0 (e - (j + 1)) (j + 1) hstall
  rw [show (j + 1) + (e - (j + 1)) = e by omega] at this
  rw [this, hw1]

/-- With no strict improvement ever recorded, the best accuracy stays 0 and
the snapshot stays the initial deep copy. -/
theorem bestAfter_wtsAfter_of_nonpos (env : RunEnv P B) (cfg : Config)
    (sizes : Phase → ℕ) (p0 : P) (E : ℕ)
    (h : ∀ i, i < E → validAccAt env cfg sizes p0 i ≤ 0) :
    ∀ i, i ≤ E → bestAfter env cfg sizes p0 i = 0 ∧
      wtsAfter env cfg sizes p0 i = p0 := by
  intro i
  induction i with
  | zero => intro _; exact ⟨rfl, rfl⟩
  | succ i ih =>
    intro hi
    obtain ⟨hb, hw⟩ := ih (by omega)
    have hni : ¬ (validAccAt env cfg sizes p0 i > bestAfter env cfg sizes p0 i) := by
      rw [hb]; exact not_lt.mpr (h i (by omega))
    constructor
    · rw [bestAfter, if_neg hni]; exact hb
    · rw [wtsAfter, if_neg hni]; exact hw

/-! ## Further helper lemmas for the witnesses -/

theorem paAfter_le_self (env : RunEnv P B) (cfg : Config) (sizes : Phase → ℕ)
    (p0 : P) : ∀ e, paAfter env cfg sizes p0 e ≤ e := by
  intro e
  induction e with
  | zero => exact Nat.le_refl 0
  | succ e ih =>
    rw [paAfter]
    by_cases h : validAccAt env cfg sizes p0 e > bestAfter env cfg sizes p0 e
    · rw [if_pos h]; omega
    · rw [if_neg h]; omega

theorem endEpoch_eq_of_no_stop (env : RunEnv P B) (cfg : Config)
    (sizes : Phase → ℕ) (p0 : P) :
    ∀ (n e : ℕ),
      (∀ j, e ≤ j → j + 1 < e + n → paAfter env cfg sizes p0 (j + 1) ≠ 20) →
      endEpoch env cfg sizes p0 e n = e + n := by
  intro n
  induction n with
  | zero => intro e _; rfl
  | succ n ih =>
    intro e h
    rw [endEpoch]
    by_cases hstop : paAfter env cfg sizes p0 (e + 1) = 20
    · have hn : n = 0 := by
        by_contra hn0
        exact h e (Nat.le_refl e) (by omega) hstop
      subst hn
      rw [if_pos hstop]
    · rw [if_neg hstop, ih (e + 1) fun j hj hlt => h j (by omega) (by omega)]
      omega

theorem epochsRun_eq_max_epochs_of_le_20 (env : RunEnv P B) (cfg : Config)
    (sizes : Phase → ℕ) (p0 : P) (h : cfg.max_epochs ≤ 20) :
    epochsRun env cfg sizes p0 = cfg.max_epochs := by
  have hns : ∀ j, 0 ≤ j → j + 1 < 0 + cfg.max_epochs →
      paAfter env cfg sizes p0 (j + 1) ≠ 20 := by
    intro j _ hlt
    have := paAfter_le_self env cfg sizes p0 (j + 1)
    omega
  have := endEpoch_eq_of_no_stop env cfg sizes p0 cfg.max_epochs 0 hns
  rw [epochsRun, this]
  omega

theorem constEnv_runningStats (l : ℚ) (c : ℕ) (e : ℕ) (ph : Phase) :
    runningStats (constEnv l c) () e ph = (l, c) := by
  cases ph <;>
    simp [runningStats, constEnv, runPhase, phaseStartNet, Phase.isTrain]

theorem constEnv_validAccAt (l : ℚ) (c : ℕ) (cfg : Config) (sizes : Phase → ℕ)
    (e : ℕ) :
    validAccAt (constEnv l c) cfg sizes () e =
      (c : ℚ) / ((sizes Phase.Valid : ℚ) *
        ((cfg.sequence_len : ℚ) - (cfg.window_size : ℚ) + 1)) := by
  rw [validAccAt, epochAccAt, constEnv_runningStats]
  rfl

theorem constEnv_zero_not_improving (cfg : Config) (sizes : Phase → ℕ)
    (e : ℕ) : ¬ improving (constEnv 0 0) cfg sizes () e := by
  simp only [improving]
  rw [constEnv_validAccAt, Nat.cast_zero, zero_div]
  exact not_lt.mpr (bestAfter_nonneg _ _ _ _ e)

theorem countEnv_netAfter : ∀ e, netAfter countEnv 0 e = e := by
  intro e
  induction e with
  | zero => rfl
  | succ e ih => rw [netAfter, ih]; simp [countEnv]

theorem countEnv_runningStats_valid (e : ℕ) :
    (runningStats countEnv 0 e Phase.Valid).2 = e + 1 := by
  rw [runningStats, phaseStartNet, countEnv_netAfter]
  simp [countEnv, runPhase, Phase.isTrain]

theorem countEnv_validAccAt (e : ℕ) :
    validAccAt countEnv ⟨1, 1, 1, 2⟩ (fun _ => 1) 0 e = (e : ℚ) + 1 := by
  rw [validAccAt, epochAccAt, epochAcc, countEnv_runningStats_valid]
  push_cast
  norm_num

theorem countEnv_bestAfter :
    ∀ e, bestAfter countEnv ⟨1, 1, 1, 2⟩ (fun _ => 1) 0 e = (e : ℚ) := by
  intro e
  induction e with
  | zero => simp [bestAfter]
  | succ e ih =>
    rw [bestAfter, countEnv_validAccAt, ih, if_pos (by norm_num)]
    push_cast
    ring

/-! ## Claim theorems -/

/-- **C1.** The claim says the backpropagation step of line 81 is driven by
the loss just computed for the current batch at line 76. In the source the
receiver of `.backward()` is the name `sequence_loss`, which is bound neither
in the local scope of `train_network` nor at module level of `train.py` (nor
is it a builtin), while the batch's own loss is bound to the distinct name
`loss`: line 81 therefore raises `NameError` instead of backpropagating from
the current batch's loss. The code contradicts the documented intent, a code
bug. -/
theorem spec_C1 :
    resolvesAtBackwardCall batchLossName = true ∧
    resolvesAtBackwardCall backwardReceiverName = false ∧
    backwardReceiverName ≠ batchLossName := by
  refine ⟨rfl, rfl, ?_⟩
  decide

/-- **C2, counterexample.** The claimed index formula — raw flat index `k`
lands at window position `(k / batch_size) % window_size`, batch position
`k % batch_size` — fails on the reshape the source performs: with
`window_size = batch_size = 2` and raw batch `[0, 1, 2, 3]`, element `k = 1`
sits at window position 1, batch position 0, but the formula points at the
entry holding element 2. -/
theorem spec_C2_cex :
    ¬ (windowAt (windowTensor 2 [0, 1, 2, 3]) ((1 / 2) % 2) (1 % 2) =
        ([0, 1, 2, 3] : List ℕ)[1]?) := by
  decide

/-- **C2, amended.** For every batch whose raw flat leading length is
`batch_size * window_size`, the reshape of lines 61-62 maps the element at
raw flat index `k` to window position `k % window_size` and batch position
`k / window_size`, with no loss of element ordering. -/
theorem spec_C2 (ws bs : ℕ) (xs : List α) (hlen : xs.length = bs * ws)
    (k : ℕ) (hk : k < bs * ws) :
    windowAt (windowTensor ws xs) (k % ws) (k / ws) = xs[k]? := by
  have hws : 0 < ws := by
    rcases Nat.eq_zero_or_pos ws with h | h
    · subst h; omega
    · exact h
  have h := windowTensor_spec ws bs xs hlen (k % ws) (k / ws)
    (Nat.mod_lt k hws) ((Nat.div_lt_iff_lt_mul hws).mpr hk)
  have hidx : k / ws * ws + k % ws = k := by
    rw [Nat.mul_comm]
    exact Nat.div_add_mod k ws
  rw [hidx] at h
  exact h

theorem spec_C2_witness :
    ([10, 20, 30, 40] : List ℕ).length = 2 * 2 ∧ (2 : ℕ) < 2 * 2 ∧
    windowAt (windowTensor 2 [10, 20, 30, 40]) (2 % 2) (2 / 2) =
      ([10, 20, 30, 40] : List ℕ)[2]? :=
  ⟨rfl, by decide, spec_C2 2 2 [10, 20, 30, 40] rfl 2 (by decide)⟩

/-- **C3.** For every phase and every executed epoch, the recorded epoch
accuracy equals `running_correct` divided by
`dataset_sizes[phase] * (sequence_len - window_size + 1)` (lines 89-90). -/
theorem spec_C3 (env : RunEnv P B) (cfg : Config) (sizes : Phase → ℕ) (p0 : P)
    (ph : Phase) (e : ℕ) (he : e < epochsRun env cfg sizes p0) :
    ((train_network env cfg sizes p0).accuracies ph)[e]? =
      some (((runningStats env p0 e ph).2 : ℚ) /
        ((sizes ph : ℚ) * ((cfg.sequence_len : ℚ) - (cfg.window_size : ℚ) + 1))) := by
  rw [train_network_accuracies, List.getElem?_map, List.getElem?_range he]
  rfl

theorem spec_C3_witness :
    0 < epochsRun (constEnv 0 230) ⟨2, 50, 5, 1⟩ (fun _ => 10) () ∧
    ((train_network (constEnv 0 230) ⟨2, 50, 5, 1⟩ (fun _ => 10) ()).accuracies
        Phase.Valid)[0]? =
      some ((230 : ℚ) / ((10 : ℚ) * ((50 : ℚ) - (5 : ℚ) + 1))) ∧
    (230 : ℚ) / ((10 : ℚ) * ((50 : ℚ) - (5 : ℚ) + 1)) = 1 / 2 := by
  have he : 0 < epochsRun (constEnv 0 230) ⟨2, 50, 5, 1⟩ (fun _ => 10) () := by
    rw [epochsRun_eq_max_epochs_of_le_20 (constEnv 0 230) ⟨2, 50, 5, 1⟩
      (fun _ => 10) () (by norm_num)]
    norm_num
  refine ⟨he, ?_, by norm_num⟩
  rw [spec_C3 (constEnv 0 230) ⟨2, 50, 5, 1⟩ (fun _ => 10) () Phase.Valid 0 he,
    constEnv_runningStats]
  norm_num

/-- **C6.** For every phase and every executed epoch, the recorded epoch loss
equals `running_loss * batch_size / dataset_sizes[phase]` (line 88), where
`running_loss` is the sum of the per-batch loss values. -/
theorem spec_C6 (env : RunEnv P B) (cfg : Config) (sizes : Phase → ℕ) (p0 : P)
    (ph : Phase) (e : ℕ) (he : e < epochsRun env cfg sizes p0) :
    ((train_network env cfg sizes p0).losses ph)[e]? =
      some ((runningStats env p0 e ph).1 * (cfg.batch_size : ℚ) / (sizes ph : ℚ)) ∧
    (runningStats env p0 e ph).1 =
      ((batchStatsList env ph.isTrain (phaseStartNet env p0 e ph)
          (env.loaders e ph)).map Prod.fst).sum := by
  constructor
  · rw [train_network_losses, List.getElem?_map, List.getElem?_range he]
    rfl
  · exact runningStats_loss env p0 e ph

theorem spec_C6_witness :
    0 < epochsRun (constEnv (3 / 2) 0) ⟨2, 50, 5, 1⟩ (fun _ => 10) () ∧
    ((train_network (constEnv (3 / 2) 0) ⟨2, 50, 5, 1⟩ (fun _ => 10) ()).losses
        Phase.Valid)[0]? =
      some ((3 / 2 : ℚ) * (2 : ℚ) / (10 : ℚ)) ∧
    (3 / 2 : ℚ) * (2 : ℚ) / (10 : ℚ) = 3 / 10 := by
  have he : 0 < epochsRun (constEnv (3 / 2) 0) ⟨2, 50, 5, 1⟩ (fun _ => 10) () := by
    rw [epochsRun_eq_max_epochs_of_le_20 (constEnv (3 / 2) 0) ⟨2, 50, 5, 1⟩
      (fun _ => 10) () (by norm_num)]
    norm_num
  refine ⟨he, ?_, by norm_num⟩
  have h := (spec_C6 (constEnv (3 / 2) 0) ⟨2, 50, 5, 1⟩ (fun _ => 10) ()
    Phase.Valid 0 he).1
  rw [h, constEnv_runningStats]
  norm_num

/-- **C4.** If the Valid accuracy fails to strictly improve on the best seen
so far at each of the 20 consecutive epochs `e .. e+19`, the epoch loop runs
no further epoch after `e+19` (at most `e+20` epochs run in total), and the
stop is decided only at the epoch boundary: the loss lists of both phases of
every executed epoch, the stopping one included, are complete. -/
theorem spec_C4 (env : RunEnv P B) (cfg : Config) (sizes : Phase → ℕ) (p0 : P)
    (e : ℕ) (h : ∀ i, e ≤ i → i ≤ e + 19 → ¬ improving env cfg sizes p0 i) :
    epochsRun env cfg sizes p0 ≤ e + 20 ∧
    ((train_network env cfg sizes p0).losses Phase.Train).length =
      epochsRun env cfg sizes p0 ∧
    ((train_network env cfg sizes p0).losses Phase.Valid).length =
      epochsRun env cfg sizes p0 := by
  refine ⟨?_, ?_, ?_⟩
  · by_contra hE
    push_neg at hE
    have hns : ∀ j, j + 1 < epochsRun env cfg sizes p0 →
        paAfter env cfg sizes p0 (j + 1) ≠ 20 := fun j hj =>
      paAfter_ne_20_before_end env cfg sizes p0 cfg.max_epochs 0 j (Nat.zero_le j) hj
    have hpe : paAfter env cfg sizes p0 e ≤ 19 :=
      paAfter_le_19 env cfg sizes p0 e fun i hi => hns i (by omega)
    have hstep : ∀ k, k ≤ 20 →
        paAfter env cfg sizes p0 (e + k) = paAfter env cfg sizes p0 e + k := by
      intro k
      induction k with
      | zero => intro _; rfl
      | succ k ih =>
        intro hk
        have hni := h (e + k) (by omega) (by omega)
        simp only [improving] at hni
        show paAfter env cfg sizes p0 ((e + k) + 1) = _
        rw [paAfter, if_neg hni, ih (by omega)]
        omega
    have h20 : paAfter env cfg sizes p0
        (e + (20 - paAfter env cfg sizes p0 e)) = 20 := by
      rw [hstep _ (by omega)]
      omega
    have hcontra := hns (e + (20 - paAfter env cfg sizes p0 e) - 1) (by omega)
    rw [show e + (20 - paAfter env cfg sizes p0 e) - 1 + 1 =
        e + (20 - paAfter env cfg sizes p0 e) from by omega] at hcontra
    exact hcontra h20
  · rw [train_network_losses]; simp
  · rw [train_network_losses]; simp

theorem spec_C4_witness :
    (∀ i, 0 ≤ i → i ≤ 0 + 19 →
      ¬ improving (constEnv 0 0) ⟨1, 1, 1, 25⟩ (fun _ => 1) () i) ∧
    epochsRun (constEnv 0 0) ⟨1, 1, 1, 25⟩ (fun _ => 1) () ≤ 0 + 20 ∧
    ((train_network (constEnv 0 0) ⟨1, 1, 1, 25⟩ (fun _ => 1) ()).losses
        Phase.Train).length =
      epochsRun (constEnv 0 0) ⟨1, 1, 1, 25⟩ (fun _ => 1) () ∧
    ((train_network (constEnv 0 0) ⟨1, 1, 1, 25⟩ (fun _ => 1) ()).losses
        Phase.Valid).length =
      epochsRun (constEnv 0 0) ⟨1, 1, 1, 25⟩ (fun _ => 1) () := by
  have hh : ∀ i, 0 ≤ i → i ≤ 0 + 19 →
      ¬ improving (constEnv 0 0) ⟨1, 1, 1, 25⟩ (fun _ => 1) () i := fun i _ _ =>
    constEnv_zero_not_improving ⟨1, 1, 1, 25⟩ (fun _ => 1) i
  exact ⟨hh, spec_C4 (constEnv 0 0) ⟨1, 1, 1, 25⟩ (fun _ => 1) () 0 hh⟩

/-- **C5.** At every epoch boundary of the run, `best_acc` equals the maximum
of the Valid accuracies recorded so far (0 when none exceeds 0); the stored
snapshot is the deep copy taken at the first epoch achieving that maximum
when it is positive (ties do not overwrite it) and stays the initial copy
when it is not; and the model `train_network` returns has exactly the final
snapshot loaded. -/
theorem spec_C5 (env : RunEnv P B) (cfg : Config) (sizes : Phase → ℕ) (p0 : P)
    (e : ℕ) (he : e ≤ epochsRun env cfg sizes p0) :
    (runEpochsFrom env cfg sizes 0 e (initState p0)).best_acc =
      ((runEpochsFrom env cfg sizes 0 e (initState p0)).accuracies
        Phase.Valid).foldl max 0 ∧
    (∀ j, j < e →
      validAccAt env cfg sizes p0 j =
        (runEpochsFrom env cfg sizes 0 e (initState p0)).best_acc →
      (∀ i, i < j → validAccAt env cfg sizes p0 i ≠
        (runEpochsFrom env cfg sizes 0 e (initState p0)).best_acc) →
      0 < (runEpochsFrom env cfg sizes 0 e (initState p0)).best_acc →
      (runEpochsFrom env cfg sizes 0 e (initState p0)).best_model_wts =
        netAfter env p0 (j + 1)) ∧
    ((runEpochsFrom env cfg sizes 0 e (initState p0)).best_acc ≤ 0 →
      (runEpochsFrom env cfg sizes 0 e (initState p0)).best_model_wts = p0) ∧
    (train_network env cfg sizes p0).net =
      (runEpochsFrom env cfg sizes 0 (epochsRun env cfg sizes p0)
        (initState p0)).best_model_wts := by
  rw [partialRun_eq env cfg sizes p0 e he,
    partialRun_eq env cfg sizes p0 _ (le_refl _)]
  refine ⟨?_, ?_, ?_, ?_⟩
  · exact bestAfter_eq_foldl env cfg sizes p0 e
  · intro j hj hmax hfirst hpos
    exact wtsAfter_eq_netAfter_of_first env cfg sizes p0 e j hj hmax hfirst hpos
  · intro hle
    have h0 : ∀ i, i < e → validAccAt env cfg sizes p0 i ≤ 0 := fun i hi =>
      le_trans (le_trans (validAccAt_le_bestAfter_succ env cfg sizes p0 i)
        (bestAfter_mono env cfg sizes p0 (by omega))) hle
    exact (bestAfter_wtsAfter_of_nonpos env cfg sizes p0 e h0 e (le_refl e)).2
  · rw [train_network_net]; rfl

theorem spec_C5_witness :
    2 ≤ epochsRun countEnv ⟨1, 1, 1, 2⟩ (fun _ => 1) 0 ∧
    (runEpochsFrom countEnv ⟨1, 1, 1, 2⟩ (fun _ => 1) 0 2 (initState 0)).best_acc =
      ((runEpochsFrom countEnv ⟨1, 1, 1, 2⟩ (fun _ => 1) 0 2
        (initState 0)).accuracies Phase.Valid).foldl max 0 ∧
    (runEpochsFrom countEnv ⟨1, 1, 1, 2⟩ (fun _ => 1) 0 2
        (initState 0)).best_model_wts = netAfter countEnv 0 2 ∧
    netAfter countEnv 0 2 = 2 ∧
    (train_network countEnv ⟨1, 1, 1, 2⟩ (fun _ => 1) 0).net =
      (runEpochsFrom countEnv ⟨1, 1, 1, 2⟩ (fun _ => 1) 0
        (epochsRun countEnv ⟨1, 1, 1, 2⟩ (fun _ => 1) 0)
        (initState 0)).best_model_wts := by
  have he : 2 ≤ epochsRun countEnv ⟨1, 1, 1, 2⟩ (fun _ => 1) 0 :=
    (epochsRun_eq_max_epochs_of_le_20 countEnv ⟨1, 1, 1, 2⟩ (fun _ => 1) 0
      (by norm_num)).ge
  obtain ⟨h1, h2, h3, h4⟩ := spec_C5 countEnv ⟨1, 1, 1, 2⟩ (fun _ => 1) 0 2 he
  have hba : (runEpochsFrom countEnv ⟨1, 1, 1, 2⟩ (fun _ => 1) 0 2
      (initState 0)).best_acc = 2 := by
    rw [partialRun_eq countEnv ⟨1, 1, 1, 2⟩ (fun _ => 1) 0 2 he]
    show bestAfter countEnv ⟨1, 1, 1, 2⟩ (fun _ => 1) 0 2 = 2
    rw [countEnv_bestAfter 2]
    norm_num
  refine ⟨he, h1, ?_, countEnv_netAfter 2, h4⟩
  refine h2 1 (by norm_num) ?_ ?_ ?_
  · rw [hba, countEnv_validAccAt 1]; norm_num
  · intro i hi
    have hi0 : i = 0 := by omega
    subst hi0
    rw [hba, countEnv_validAccAt 0]
    norm_num
  · rw [hba]; norm_num

/-- **C7.** After `train_network` returns, the per-phase loss and accuracy
lists all have the same length: the number of epochs actually executed, which
is at most `max_epochs`. -/
theorem spec_C7 (env : RunEnv P B) (cfg : Config) (sizes : Phase → ℕ) (p0 : P) :
    ((train_network env cfg sizes p0).losses Phase.Train).length =
      epochsRun env cfg sizes p0 ∧
    ((train_network env cfg sizes p0).losses Phase.Valid).length =
      epochsRun env cfg sizes p0 ∧
    ((train_network env cfg sizes p0).accuracies Phase.Train).length =
      epochsRun env cfg sizes p0 ∧
    ((train_network env cfg sizes p0).accuracies Phase.Valid).length =
      epochsRun env cfg sizes p0 ∧
    epochsRun env cfg sizes p0 ≤ cfg.max_epochs := by
  refine ⟨?_, ?_, ?_, ?_, epochsRun_le_max_epochs env cfg sizes p0⟩ <;>
    first
      | (rw [train_network_losses]; simp)
      | (rw [train_network_accuracies]; simp)

/-- **C8.** In the Valid phase the parameters are never updated: processing
one batch hands the unchanged parameter state to the rest of the loop, the
whole batch loop returns the parameters it started from (this holds for every
environment, in particular for every `optimizer.step` effect, so no step is
applied), and the state after the Valid phase carries the same `net`. -/
theorem spec_C8 (env : RunEnv P B) (p : P) (rl : ℚ) (rc : ℕ) (b : B)
    (bs : List B) :
    runPhase env Phase.Valid.isTrain p rl rc (b :: bs) =
      runPhase env Phase.Valid.isTrain p (rl + (env.fwd p b).1)
        (rc + (env.fwd p b).2) bs ∧
    (runPhase env Phase.Valid.isTrain p rl rc (b :: bs)).1 = p ∧
    ∀ (cfg : Config) (sizes : Phase → ℕ) (e : ℕ) (st : TrainState P),
      (processPhase env cfg sizes e Phase.Valid st).net = st.net := by
  refine ⟨rfl, runPhase_net_of_not_training env (b :: bs) p rl rc, ?_⟩
  intro cfg sizes e st
  simp only [processPhase, Phase.isTrain]
  split <;> simp [runPhase_net_of_not_training]

/-- **C9.** Before the first epoch `best_acc = 0`, `patience = 0` and the
snapshot is the (deep copy of the) initial parameters; and in any run whose
Valid accuracies are all ≤ 0, no strict improvement ever happens, so
`train_network` returns the model with its initial parameters and best
accuracy 0. -/
theorem spec_C9 (env : RunEnv P B) (cfg : Config) (sizes : Phase → ℕ) (p0 : P)
    (h : ∀ e, e < epochsRun env cfg sizes p0 → validAccAt env cfg sizes p0 e ≤ 0) :
    (initState p0).best_acc = 0 ∧ (initState p0).patience = 0 ∧
    (initState p0).best_model_wts = p0 ∧
    (train_network env cfg sizes p0).net = p0 ∧
    (train_network env cfg sizes p0).best_acc = 0 := by
  obtain ⟨hb, hw⟩ := bestAfter_wtsAfter_of_nonpos env cfg sizes p0
    (epochsRun env cfg sizes p0) h (epochsRun env cfg sizes p0) (le_refl _)
  refine ⟨rfl, rfl, rfl, ?_, ?_⟩
  · rw [train_network_net]; exact hw
  · rw [train_network_best_acc]; exact hb

theorem spec_C9_witness :
    (∀ e, e < epochsRun (constEnv 0 0) ⟨1, 1, 1, 1⟩ (fun _ => 1) () →
      validAccAt (constEnv 0 0) ⟨1, 1, 1, 1⟩ (fun _ => 1) () e ≤ 0) ∧
    (train_network (constEnv 0 0) ⟨1, 1, 1, 1⟩ (fun _ => 1) ()).net = () ∧
    (train_network (constEnv 0 0) ⟨1, 1, 1, 1⟩ (fun _ => 1) ()).best_acc = 0 := by
  have hh : ∀ e, e < epochsRun (constEnv 0 0) ⟨1, 1, 1, 1⟩ (fun _ => 1) () →
      validAccAt (constEnv 0 0) ⟨1, 1, 1, 1⟩ (fun _ => 1) () e ≤ 0 := by
    intro e _
    rw [constEnv_validAccAt]
    norm_num
  obtain ⟨-, -, -, h4, h5⟩ := spec_C9 (constEnv 0 0) ⟨1, 1, 1, 1⟩ (fun _ => 1) () hh
  exact ⟨hh, h4, h5⟩

/-- **C10.** With `max_epochs = 0` the loop of line 42 runs no phase at all:
`train_network` returns the model with its initial parameters loaded, best
accuracy 0, and empty loss and accuracy lists for both phases. -/
theorem spec_C10 (env : RunEnv P B) (sizes : Phase → ℕ) (p0 : P)
    (batch_size sequence_len window_size : ℕ) :
    (train_network env ⟨batch_size, sequence_len, window_size, 0⟩ sizes p0).net = p0 ∧
    (train_network env ⟨batch_size, sequence_len, window_size, 0⟩ sizes p0).best_acc = 0 ∧
    ∀ ph,
      (train_network env ⟨batch_size, sequence_len, window_size, 0⟩ sizes p0).losses ph = [] ∧
      (train_network env ⟨batch_size, sequence_len, window_size, 0⟩ sizes p0).accuracies ph = [] := by
  refine ⟨rfl, rfl, ?_⟩
  intro ph
  cases ph <;> exact ⟨rfl, rfl⟩

end AttentionEstimation
